import Mathlib

/-!
Verification of the egui-pixel-editor crate against its specification.

The definitions below are shallow embeddings of the Rust source files:
src/ellipse.rs (discrete ellipse predicate and its binary-search boundary
solver), src/undo.rs (sparse frame-grouped undo/redo log), src/tiled_image.rs
(tile addressing and dirty marking of the tiled render cache), src/brush.rs
and src/image_editor.rs (the two brush rasterizers). Rust isize values are
modelled as Int; Rust truncating division is Int.tdiv; a Rust panic
(assert! failure or the unreachable! branch) is modelled as Option.none.
-/

/-! ## src/ellipse.rs -/

/-- The discrete ellipse inequality from src/ellipse.rs, ellipse():
y2 * wx2 <= wy2 * wx2 - wy2 * x2. -/
def ellipse (wx wy x y : Int) : Bool :=
  let x2 := x * x
  let y2 := y * y
  let wx2 := wx * wx
  let wy2 := wy * wy
  decide (y2 * wx2 ≤ wy2 * wx2 - wy2 * x2)

/-- One unrolling of the bounded binary-search loop of solve_ellipse
(src/ellipse.rs lines 18-41). The fuel counts the remaining iterations of
the Rust loop for _ in 0..=isize::BITS; exhausting it reaches the
unreachable!("Ellipse went unsolved!") branch, modelled as none.
Rust (max + min) / 2 on isize is truncating division, Int.tdiv. -/
def solve_ellipse_loop (wx wy x : Int) : Nat → Int → Int → Option Int
  | 0, _, _ => none
  | fuel + 1, mn, mx =>
    let mid := Int.tdiv (mx + mn) 2
    if ellipse wx wy x mx then some mx
    else if mx - mn = 1 ∧ ellipse wx wy x mn then some mn
    else if ellipse wx wy x mid then solve_ellipse_loop wx wy x fuel mid mx
    else solve_ellipse_loop wx wy x fuel mn mid

/-- Number of loop iterations performed by solve_ellipse: the Rust loop
for _ in 0..=isize::BITS runs isize::BITS + 1 = 65 times on a 64-bit target. -/
def isize_bits : Nat := 64

/-- Largest value of a 64-bit isize. -/
def isize_max : Int := 2 ^ 63 - 1

/-- solve_ellipse from src/ellipse.rs lines 12-44. The four leading assert!
calls are modelled by the guard (a failed assert panics, i.e. none). -/
def solve_ellipse (wx wy x : Int) : Option Int :=
  if 0 ≤ wx ∧ 0 ≤ wy ∧ x ≤ wx ∧ -wx ≤ x then
    solve_ellipse_loop wx wy x (isize_bits + 1) 0 wy
  else none

/-- Wrap to the 64-bit two's complement isize range: the value produced by a
release build's wrapping isize arithmetic. The definitions above use
unbounded Int and therefore model the code only where no intermediate
product leaves the isize range; the wrap64 variants below are exact for a
release build on all inputs (a debug build panics at the first overflowing
operation, so wherever the two models disagree the Rust function fails to
compute the ideal predicate in either profile). -/
def wrap64 (a : Int) : Int := (a + 2 ^ 63) % 2 ^ 64 - 2 ^ 63

/-- ellipse() as executed by a release build: each isize multiplication and
the subtraction wrap to 64 bits. -/
def ellipse_wrap (wx wy x y : Int) : Bool :=
  let x2 := wrap64 (x * x)
  let y2 := wrap64 (y * y)
  let wx2 := wrap64 (wx * wx)
  let wy2 := wrap64 (wy * wy)
  decide (wrap64 (y2 * wx2) ≤ wrap64 (wrap64 (wy2 * wx2) - wrap64 (wy2 * x2)))

/-- The solve_ellipse loop under release-build wrapping arithmetic. -/
def solve_ellipse_wrap_loop (wx wy x : Int) : Nat → Int → Int → Option Int
  | 0, _, _ => none
  | fuel + 1, mn, mx =>
    let mid := Int.tdiv (wrap64 (mx + mn)) 2
    if ellipse_wrap wx wy x mx then some mx
    else if wrap64 (mx - mn) = 1 ∧ ellipse_wrap wx wy x mn then some mn
    else if ellipse_wrap wx wy x mid then solve_ellipse_wrap_loop wx wy x fuel mid mx
    else solve_ellipse_wrap_loop wx wy x fuel mn mid

/-- solve_ellipse as executed by a release build. -/
def solve_ellipse_wrap (wx wy x : Int) : Option Int :=
  if 0 ≤ wx ∧ 0 ≤ wy ∧ x ≤ wx ∧ -wx ≤ x then
    solve_ellipse_wrap_loop wx wy x (isize_bits + 1) 0 wy
  else none

/-! ## Correctness of the ellipse boundary solver -/

theorem ellipse_le_iff {wx wy x y : Int} :
    ellipse wx wy x y = true ↔ y * y * (wx * wx) ≤ wy * wy * (wx * wx) - wy * wy * (x * x) := by
  simp [ellipse]

theorem ellipse_abs (wx wy x y : Int) : ellipse wx wy x |y| = ellipse wx wy x y := by
  simp [ellipse, abs_mul_abs_self]

theorem ellipse_zero {wx wy x : Int} (hx : x * x ≤ wx * wx) : ellipse wx wy x 0 = true := by
  rw [ellipse_le_iff]
  nlinarith [mul_self_nonneg wy]

theorem ellipse_mono {wx wy x a b : Int} (h0 : 0 ≤ a) (hab : a ≤ b)
    (hb : ellipse wx wy x b = true) : ellipse wx wy x a = true := by
  rw [ellipse_le_iff] at hb ⊢
  nlinarith [mul_self_le_mul_self h0 hab, mul_self_nonneg wx]

theorem solve_ellipse_loop_succ (wx wy x : Int) (fuel : Nat) (mn mx : Int) :
    solve_ellipse_loop wx wy x (fuel + 1) mn mx =
      if ellipse wx wy x mx then some mx
      else if mx - mn = 1 ∧ ellipse wx wy x mn then some mn
      else if ellipse wx wy x (Int.tdiv (mx + mn) 2) then
        solve_ellipse_loop wx wy x fuel (Int.tdiv (mx + mn) 2) mx
      else
        solve_ellipse_loop wx wy x fuel mn (Int.tdiv (mx + mn) 2) := rfl

theorem solve_ellipse_loop_spec (wx wy x : Int) :
    ∀ (fuel : Nat) (mn mx : Int), 0 ≤ mn → mn ≤ mx → mx ≤ wy →
      ellipse wx wy x mn = true →
      (mx = wy ∨ ellipse wx wy x mx = false) →
      mx - mn ≤ 2 ^ fuel →
      ∃ m, solve_ellipse_loop wx wy x (fuel + 1) mn mx = some m ∧
        0 ≤ m ∧ m ≤ wy ∧ ellipse wx wy x m = true ∧
        (m = wy ∨ ellipse wx wy x (m + 1) = false) := by
  intro fuel
  induction fuel with
  | zero =>
    intro mn mx h0 hle hwy hPmn hI hgap
    rw [solve_ellipse_loop_succ]
    by_cases hPmx : ellipse wx wy x mx = true
    · rw [if_pos hPmx]
      refine ⟨mx, rfl, by omega, hwy, hPmx, ?_⟩
      rcases hI with h | h
      · exact Or.inl h
      · rw [hPmx] at h
        cases h
    · have hPmx' : ellipse wx wy x mx = false := by
        simpa using hPmx
      rw [if_neg hPmx]
      have hne : mn ≠ mx := by
        intro h
        rw [h, hPmx'] at hPmn
        cases hPmn
      have hgap1 : mx - mn = 1 := by
        norm_num at hgap
        omega
      rw [if_pos ⟨hgap1, hPmn⟩]
      refine ⟨mn, rfl, h0, by omega, hPmn, Or.inr ?_⟩
      have : mn + 1 = mx := by omega
      rw [this]
      exact hPmx'
  | succ f ih =>
    intro mn mx h0 hle hwy hPmn hI hgap
    rw [solve_ellipse_loop_succ]
    by_cases hPmx : ellipse wx wy x mx = true
    · rw [if_pos hPmx]
      refine ⟨mx, rfl, by omega, hwy, hPmx, ?_⟩
      rcases hI with h | h
      · exact Or.inl h
      · rw [hPmx] at h
        cases h
    · have hPmx' : ellipse wx wy x mx = false := by
        simpa using hPmx
      rw [if_neg hPmx]
      have hne : mn ≠ mx := by
        intro h
        rw [h, hPmx'] at hPmn
        cases hPmn
      by_cases hgap1 : mx - mn = 1
      · rw [if_pos ⟨hgap1, hPmn⟩]
        refine ⟨mn, rfl, h0, by omega, hPmn, Or.inr ?_⟩
        have : mn + 1 = mx := by omega
        rw [this]
        exact hPmx'
      · rw [if_neg (by simp [hgap1])]
        have ht : Int.tdiv (mx + mn) 2 = (mx + mn) / 2 :=
          Int.tdiv_eq_ediv (by omega) (by norm_num)
        have h2f : (2 : Int) ^ (f + 1) = 2 * 2 ^ f := by ring
        have h2f0 : (0 : Int) < 2 ^ f := by positivity
        rw [h2f] at hgap
        by_cases hPmid : ellipse wx wy x (Int.tdiv (mx + mn) 2) = true
        · rw [if_pos hPmid]
          exact ih (Int.tdiv (mx + mn) 2) mx (by omega) (by omega) hwy hPmid
            (Or.inr hPmx') (by omega)
        · have hPmid' : ellipse wx wy x (Int.tdiv (mx + mn) 2) = false := by
            simpa using hPmid
          rw [if_neg hPmid]
          exact ih mn (Int.tdiv (mx + mn) 2) h0 (by omega) (by omega) hPmn
            (Or.inr hPmid') (by omega)

theorem solve_ellipse_char (wx wy x : Int) (hwx : 0 ≤ wx) (hwy : 0 ≤ wy)
    (hwyb : wy ≤ isize_max) (hx1 : -wx ≤ x) (hx2 : x ≤ wx) :
    ∃ m, solve_ellipse wx wy x = some m ∧ 0 ≤ m ∧ m ≤ wy ∧
      ellipse wx wy x m = true ∧ (m = wy ∨ ellipse wx wy x (m + 1) = false) := by
  have hx : x * x ≤ wx * wx := by
    nlinarith [mul_nonneg (by omega : (0 : Int) ≤ wx - x) (by omega : (0 : Int) ≤ wx + x)]
  rw [solve_ellipse, if_pos ⟨hwx, hwy, hx2, hx1⟩]
  have hgap : wy - 0 ≤ 2 ^ (64 : Nat) := by
    have hb : isize_max ≤ 2 ^ (64 : Nat) := by norm_num [isize_max]
    omega
  exact solve_ellipse_loop_spec wx wy x 64 0 wy le_rfl hwy le_rfl
    (ellipse_zero hx) (Or.inl rfl) hgap

/-- C1: Ellipse boundary-solver exactness. For all half-extents wx, wy with
0 <= wx and 0 <= wy (wy within the isize range the Rust loop bound covers)
and every scanline offset x with |x| <= wx, solve_ellipse returns some m with
m >= 0 such that for every y in [-wx, wx] the discrete ellipse inequality
holds if and only if |y| <= m, including the degenerate cases wx = 0 and
wy = 0. -/
theorem solve_ellipse_exact (wx wy x : Int) (hwx : 0 ≤ wx) (hwy : 0 ≤ wy)
    (hwyb : wy ≤ isize_max) (hx1 : -wx ≤ x) (hx2 : x ≤ wx) :
    ∃ m, solve_ellipse wx wy x = some m ∧ 0 ≤ m ∧
      ∀ y, -wx ≤ y → y ≤ wx → (ellipse wx wy x y = true ↔ |y| ≤ m) := by
  obtain ⟨m, hsolve, hm0, hmwy, hPm, hnext⟩ :=
    solve_ellipse_char wx wy x hwx hwy hwyb hx1 hx2
  refine ⟨m, hsolve, hm0, fun y hy1 hy2 => ?_⟩
  constructor
  · intro hPy
    by_contra hgt
    push_neg at hgt
    have habsP : ellipse wx wy x |y| = true := (ellipse_abs wx wy x y).trans hPy
    rcases hnext with hmw | hPn
    · have hgt' : wy < |y| := hmw ▸ hgt
      by_cases hwx0 : wx = 0
      · have hy0 : |y| ≤ 0 := by
          rw [abs_le]
          omega
        have := abs_nonneg y
        omega
      · have hwxpos : 1 ≤ wx * wx := by
          rcases lt_trichotomy wx 0 with h | h | h
          · nlinarith
          · exact absurd h hwx0
          · nlinarith
        rw [ellipse_le_iff] at habsP
        have h1 : (wy + 1) * (wy + 1) ≤ |y| * |y| :=
          mul_self_le_mul_self (by omega) (by omega)
        have h2 : (wy + 1) * (wy + 1) * (wx * wx) ≤ |y| * |y| * (wx * wx) :=
          mul_le_mul_of_nonneg_right h1 (mul_self_nonneg wx)
        nlinarith [mul_nonneg (mul_self_nonneg wy) (mul_self_nonneg x)]
    · have : ellipse wx wy x (m + 1) = true :=
        ellipse_mono (by omega) (by omega : m + 1 ≤ |y|) habsP
      rw [hPn] at this
      cases this
  · intro hym
    rw [← ellipse_abs]
    exact ellipse_mono (abs_nonneg y) hym hPm

/-- Witness for solve_ellipse_exact at wx = 3, wy = 2, x = 1. -/
theorem solve_ellipse_exact_witness :
    ∃ m, solve_ellipse 3 2 1 = some m ∧ 0 ≤ m ∧
      ∀ y, -3 ≤ y → y ≤ 3 → (ellipse 3 2 1 y = true ↔ |y| ≤ m) :=
  solve_ellipse_exact 3 2 1 (by decide) (by decide) (by decide) (by decide) (by decide)

theorem solve_ellipse_wrap_loop_succ (wx wy x : Int) (fuel : Nat) (mn mx : Int) :
    solve_ellipse_wrap_loop wx wy x (fuel + 1) mn mx =
      if ellipse_wrap wx wy x mx then some mx
      else if wrap64 (mx - mn) = 1 ∧ ellipse_wrap wx wy x mn then some mn
      else if ellipse_wrap wx wy x (Int.tdiv (wrap64 (mx + mn)) 2) then
        solve_ellipse_wrap_loop wx wy x fuel (Int.tdiv (wrap64 (mx + mn)) 2) mx
      else
        solve_ellipse_wrap_loop wx wy x fuel mn (Int.tdiv (wrap64 (mx + mn)) 2) := rfl

theorem wrap64_eq_self {a : Int} (h1 : -(2 ^ 63) ≤ a) (h2 : a ≤ 2 ^ 63 - 1) :
    wrap64 a = a := by
  unfold wrap64
  omega

theorem ellipse_wrap_eq {wx wy x y : Int}
    (hx : x * x ≤ wx * wx) (hy : y * y ≤ wy * wy)
    (hwx2 : wx * wx ≤ isize_max) (hwy2 : wy * wy ≤ isize_max)
    (hprod : wy * wy * (wx * wx) ≤ isize_max) :
    ellipse_wrap wx wy x y = ellipse wx wy x y := by
  have hM : isize_max = 2 ^ 63 - 1 := rfl
  rw [hM] at hwx2 hwy2 hprod
  have hx0 : 0 ≤ x * x := mul_self_nonneg x
  have hy0 : 0 ≤ y * y := mul_self_nonneg y
  have hwx0 : 0 ≤ wx * wx := mul_self_nonneg wx
  have hwy0 : 0 ≤ wy * wy := mul_self_nonneg wy
  have p1 : 0 ≤ y * y * (wx * wx) := mul_nonneg hy0 hwx0
  have p1b : y * y * (wx * wx) ≤ wy * wy * (wx * wx) := mul_le_mul_of_nonneg_right hy hwx0
  have p2 : 0 ≤ wy * wy * (wx * wx) := mul_nonneg hwy0 hwx0
  have p3 : 0 ≤ wy * wy * (x * x) := mul_nonneg hwy0 hx0
  have p3b : wy * wy * (x * x) ≤ wy * wy * (wx * wx) := mul_le_mul_of_nonneg_left hx hwy0
  have e1 : wrap64 (x * x) = x * x := wrap64_eq_self (by omega) (by omega)
  have e2 : wrap64 (y * y) = y * y := wrap64_eq_self (by omega) (by omega)
  have e3 : wrap64 (wx * wx) = wx * wx := wrap64_eq_self (by omega) (by omega)
  have e4 : wrap64 (wy * wy) = wy * wy := wrap64_eq_self (by omega) (by omega)
  have e5 : wrap64 (y * y * (wx * wx)) = y * y * (wx * wx) :=
    wrap64_eq_self (by omega) (by omega)
  have e6 : wrap64 (wy * wy * (wx * wx)) = wy * wy * (wx * wx) :=
    wrap64_eq_self (by omega) (by omega)
  have e7 : wrap64 (wy * wy * (x * x)) = wy * wy * (x * x) :=
    wrap64_eq_self (by omega) (by omega)
  have e8 : wrap64 (wy * wy * (wx * wx) - wy * wy * (x * x)) =
      wy * wy * (wx * wx) - wy * wy * (x * x) := wrap64_eq_self (by omega) (by omega)
  simp only [ellipse_wrap, ellipse]
  rw [e1, e2, e3, e4, e5, e6, e7, e8]

theorem solve_ellipse_wrap_loop_eq (wx wy x : Int) (hwy : 0 ≤ wy)
    (hx : x * x ≤ wx * wx)
    (hwx2 : wx * wx ≤ isize_max) (hwy2 : wy * wy ≤ isize_max)
    (hprod : wy * wy * (wx * wx) ≤ isize_max) :
    ∀ (fuel : Nat) (mn mx : Int), 0 ≤ mn → mn ≤ mx → mx ≤ wy →
      solve_ellipse_wrap_loop wx wy x fuel mn mx = solve_ellipse_loop wx wy x fuel mn mx := by
  have hM : isize_max = 2 ^ 63 - 1 := rfl
  have hwyM : wy + wy ≤ 2 ^ 63 - 1 := by
    rcases le_or_lt wy 1 with h1 | h1
    · omega
    · have h2 : wy + wy ≤ wy * wy := by nlinarith
      rw [hM] at hwy2
      omega
  intro fuel
  induction fuel with
  | zero =>
    intro mn mx _ _ _
    rfl
  | succ f ih =>
    intro mn mx h0 hle hmxwy
    have hsum : wrap64 (mx + mn) = mx + mn := wrap64_eq_self (by omega) (by omega)
    have hdiff : wrap64 (mx - mn) = mx - mn := wrap64_eq_self (by omega) (by omega)
    have ht : Int.tdiv (mx + mn) 2 = (mx + mn) / 2 :=
      Int.tdiv_eq_ediv (by omega) (by norm_num)
    have hmid1 : mn ≤ Int.tdiv (mx + mn) 2 := by
      rw [ht]
      omega
    have hmid2 : Int.tdiv (mx + mn) 2 ≤ mx := by
      rw [ht]
      omega
    have hsq : ∀ z : Int, 0 ≤ z → z ≤ wy → z * z ≤ wy * wy := fun z hz0 hzw =>
      mul_self_le_mul_self hz0 hzw
    have eqx : ellipse_wrap wx wy x mx = ellipse wx wy x mx :=
      ellipse_wrap_eq hx (hsq mx (by omega) hmxwy) hwx2 hwy2 hprod
    have eqn : ellipse_wrap wx wy x mn = ellipse wx wy x mn :=
      ellipse_wrap_eq hx (hsq mn h0 (by omega)) hwx2 hwy2 hprod
    have eqm : ellipse_wrap wx wy x (Int.tdiv (mx + mn) 2) =
        ellipse wx wy x (Int.tdiv (mx + mn) 2) :=
      ellipse_wrap_eq hx (hsq _ (by omega) (by omega)) hwx2 hwy2 hprod
    rw [solve_ellipse_wrap_loop_succ, solve_ellipse_loop_succ, hsum, hdiff, eqx, eqn, eqm]
    split_ifs with h1 h2 h3
    · rfl
    · rfl
    · exact ih (Int.tdiv (mx + mn) 2) mx (by omega) hmid2 hmxwy
    · exact ih mn (Int.tdiv (mx + mn) 2) h0 hmid1 (by omega)

theorem solve_ellipse_wrap_eq (wx wy x : Int) (hwx : 0 ≤ wx) (hwy : 0 ≤ wy)
    (hx1 : -wx ≤ x) (hx2 : x ≤ wx)
    (hwx2 : wx * wx ≤ isize_max) (hwy2 : wy * wy ≤ isize_max)
    (hprod : wy * wy * (wx * wx) ≤ isize_max) :
    solve_ellipse_wrap wx wy x = solve_ellipse wx wy x := by
  have hx : x * x ≤ wx * wx := by
    nlinarith [mul_nonneg (by omega : (0 : Int) ≤ wx - x) (by omega : (0 : Int) ≤ wx + x)]
  unfold solve_ellipse_wrap solve_ellipse
  rw [if_pos ⟨hwx, hwy, hx2, hx1⟩, if_pos ⟨hwx, hwy, hx2, hx1⟩]
  exact solve_ellipse_wrap_loop_eq wx wy x hwy hx hwx2 hwy2 hprod (isize_bits + 1) 0 wy
    le_rfl hwy le_rfl

/-- C2 counterexample: at (wx, wy, x) = (2, 2^31, 1) every assert holds, yet
in a release build wy2 * wx2 = 2^64 wraps to 0, the wrapped predicate is
false at every point the binary search probes, the loop never returns, and
after its 65 iterations the function reaches
unreachable!("Ellipse went unsolved!") — modelled as none. A debug build
panics at the overflowing multiplication instead, so on this assert-valid
input the Rust function panics in both profiles, refuting the claim as
stated. -/
theorem solve_ellipse_overflow_unsolved :
    (0 ≤ (2 : Int) ∧ 0 ≤ (2 ^ 31 : Int) ∧ (1 : Int) ≤ 2 ∧ -(2 : Int) ≤ 1) ∧
    solve_ellipse_wrap 2 (2 ^ 31) 1 = none :=
  ⟨by decide, by decide⟩

/-- C2 (amended): Ellipse solver totality on the overflow-free domain. For
every input satisfying the assert! preconditions whose ellipse products fit
in isize (wx * wx, wy * wy and wy * wy * wx * wx all at most isize::MAX),
the release-build wrapping arithmetic computes exactly the ideal predicate,
the bounded loop returns normally, and the
unreachable!("Ellipse went unsolved!") branch (modelled as none) is never
reached. -/
theorem solve_ellipse_total_no_overflow (wx wy x : Int) (hwx : 0 ≤ wx) (hwy : 0 ≤ wy)
    (hx1 : -wx ≤ x) (hx2 : x ≤ wx)
    (hwx2 : wx * wx ≤ isize_max) (hwy2 : wy * wy ≤ isize_max)
    (hprod : wy * wy * (wx * wx) ≤ isize_max) :
    (solve_ellipse_wrap wx wy x).isSome = true ∧
    solve_ellipse_wrap wx wy x = solve_ellipse wx wy x := by
  have heq := solve_ellipse_wrap_eq wx wy x hwx hwy hx1 hx2 hwx2 hwy2 hprod
  have hwyM : wy ≤ isize_max := by
    have hM : isize_max = 2 ^ 63 - 1 := rfl
    rw [hM] at hwy2 ⊢
    nlinarith [mul_self_nonneg (wy - 1)]
  obtain ⟨m, hs, -⟩ := solve_ellipse_char wx wy x hwx hwy hwyM hx1 hx2
  rw [heq, hs]
  exact ⟨rfl, rfl⟩

/-- Witness for solve_ellipse_total_no_overflow at wx = 3, wy = 2, x = 1. -/
theorem solve_ellipse_total_no_overflow_witness :
    (solve_ellipse_wrap 3 2 1).isSome = true ∧
    solve_ellipse_wrap 3 2 1 = solve_ellipse 3 2 1 :=
  solve_ellipse_total_no_overflow 3 2 1 (by decide) (by decide) (by decide) (by decide)
    (by decide) (by decide) (by decide)

/-! ## src/image.rs and src/undo.rs: Surface, views and the undo log

A Pixel Surface (the Image trait of src/image.rs, restricted to the
get_pixel/set_pixel capability the undo and tile trackers use) is modelled as
a total pixel map; an ImageOps value plays the role of an Image trait
implementation, so the undoer can be stated generically over the wrapped
image exactly as the Rust code is. -/

def Surface (Px : Type) : Type := Int × Int → Px

def Surface.get_pixel {Px : Type} (s : Surface Px) (x y : Int) : Px := s (x, y)

def Surface.set_pixel {Px : Type} (s : Surface Px) (x y : Int) (px : Px) : Surface Px :=
  fun q => if q = (x, y) then px else s q

/-- An implementation of the Image trait over state type sigma. -/
structure ImageOps (σ Px : Type) where
  get_pixel : σ → Int → Int → Px
  set_pixel : σ → Int → Int → Px → σ

/-- The base Image implementation: a bare Surface. -/
def surfaceOps (Px : Type) : ImageOps (Surface Px) Px :=
  { get_pixel := Surface.get_pixel, set_pixel := Surface.set_pixel }

/-- UndoFrame from src/undo.rs line 13: entries (x, y, old, new) in the
order the writes occurred. -/
abbrev UndoFrame (Px : Type) := List (Int × Int × Px × Px)

/-- SparseImageUndoer from src/undo.rs lines 15-22. Vec is modelled as List
with index 0 at the head, push appending at the end. -/
structure SparseImageUndoer (Px : Type) where
  changes : List (UndoFrame Px)
  redo : List (UndoFrame Px)
  max_frames : Nat

/-- SparseImageUndoer::new (src/undo.rs lines 25-31). -/
def SparseImageUndoer.new (Px : Type) : SparseImageUndoer Px :=
  { changes := [], redo := [], max_frames := 100 }

/-- SparseImageUndoer::new_frame (src/undo.rs lines 33-38): push an empty
frame, then drop the oldest frame if the history bound is exceeded. -/
def undoer_new_frame {Px : Type} (u : SparseImageUndoer Px) : SparseImageUndoer Px :=
  let changes := u.changes ++ [[]]
  { u with changes := if u.max_frames < changes.length then changes.drop 1 else changes }

/-- SparseImageUndoer::set_pixel (src/undo.rs lines 40-56). The
last_mut().unwrap() is modelled by the match: none is the unwrap panic. -/
def undoer_set_pixel? {σ Px : Type} [DecidableEq Px] (ops : ImageOps σ Px)
    (u : SparseImageUndoer Px) (image : σ) (x y : Int) (new_px : Px) :
    Option (SparseImageUndoer Px × σ) :=
  let changes := if u.changes.isEmpty then [[]] else u.changes
  match changes.getLast? with
  | none => none
  | some frame =>
    let old_px := ops.get_pixel image x y
    if new_px ≠ old_px then
      some ({ u with
                changes := changes.dropLast ++ [frame ++ [(x, y, old_px, new_px)]]
                redo := [] },
            ops.set_pixel image x y new_px)
    else
      some ({ u with changes := changes }, image)

/-- Total wrapper around undoer_set_pixel? (the unwrap in fact never fails). -/
def undoer_set_pixel {σ Px : Type} [DecidableEq Px] (ops : ImageOps σ Px)
    (u : SparseImageUndoer Px) (image : σ) (x y : Int) (new_px : Px) :
    SparseImageUndoer Px × σ :=
  (undoer_set_pixel? ops u image x y new_px).getD (u, image)

/-- The pop-until-non-empty loop at the top of SparseImageUndoer::undo
(src/undo.rs lines 63-70): pops frames off the end of the done-stack,
discarding empty ones, and returns the remaining stack together with the
first non-empty frame found, or none if the stack is exhausted. -/
def pop_non_empty {Px : Type} (changes : List (UndoFrame Px)) :
    Option (List (UndoFrame Px) × UndoFrame Px) :=
  match h : changes.getLast? with
  | none => none
  | some frame =>
    if frame.isEmpty then pop_non_empty changes.dropLast
    else some (changes.dropLast, frame)
termination_by changes.length
decreasing_by
  have hne : changes ≠ [] := by
    intro hnil
    rw [hnil] at h
    simp at h
  have hpos : 0 < changes.length := List.length_pos.mpr hne
  simp [List.length_dropLast]
  omega

/-- SparseImageUndoer::undo (src/undo.rs lines 58-81): find the most recent
non-empty frame (discarding empty ones), write each recorded old value back
in reverse order, and push the frame onto the redo stack. The debug_assert
consistency check is compiled out in release builds and not modelled. -/
def undoer_undo {σ Px : Type} (ops : ImageOps σ Px) (u : SparseImageUndoer Px)
    (image : σ) : SparseImageUndoer Px × σ :=
  match pop_non_empty u.changes with
  | none => ({ u with changes := [] }, image)
  | some (changes, frame) =>
    ({ u with changes := changes, redo := u.redo ++ [frame] },
     frame.reverse.foldl (fun im e => ops.set_pixel im e.1 e.2.1 e.2.2.1) image)

/-- SparseImageUndoer::redo (src/undo.rs lines 83-101): pop a frame from the
redo stack, write each recorded new value in forward order, and push the
frame back onto the done-stack. -/
def undoer_redo {σ Px : Type} (ops : ImageOps σ Px) (u : SparseImageUndoer Px)
    (image : σ) : SparseImageUndoer Px × σ :=
  match u.redo.getLast? with
  | none => (u, image)
  | some frame =>
    ({ u with changes := u.changes ++ [frame], redo := u.redo.dropLast },
     frame.foldl (fun im e => ops.set_pixel im e.1 e.2.1 e.2.2.2) image)

/-! ## src/tiled_image.rs: tile addressing and dirty marking -/

/-- TiledEguiImage (src/tiled_image.rs lines 20-23). The HashMap of tiles is
modelled by its dirty flags: tiles p = some d when a tile exists at tile
coordinate p with is_dirty = d (the texture id is irrelevant to the claims),
and none when no tile exists there. -/
structure TiledEguiImage where
  tiles : Int × Int → Option Bool
  texture_width : Nat

/-- TiledEguiImage::calc_tile (src/tiled_image.rs lines 39-42). Rust isize
division truncates toward zero, hence Int.tdiv. -/
def calc_tile (t : TiledEguiImage) (x y : Int) : Int × Int :=
  (Int.tdiv x (t.texture_width : Int), Int.tdiv y (t.texture_width : Int))

/-- TiledEguiImage::notify_change (src/tiled_image.rs lines 44-49): set the
dirty flag of the tile computed by calc_tile if it exists; otherwise no-op. -/
def notify_change (t : TiledEguiImage) (x y : Int) : TiledEguiImage :=
  match t.tiles (calc_tile t x y) with
  | some _ => { t with tiles := fun q => if q = calc_tile t x y then some true else t.tiles q }
  | none => t

/-- The Image implementation of TileChangeTracker (src/tiled_image.rs lines
125-142): set_pixel first notifies the tile tracker, then forwards the write
to the wrapped Surface; get_pixel just forwards. -/
def tileOps (Px : Type) : ImageOps (TiledEguiImage × Surface Px) Px :=
  { get_pixel := fun st x y => st.2.get_pixel x y,
    set_pixel := fun st x y px => (notify_change st.1 x y, st.2.set_pixel x y px) }

/-! ## Support lemmas about the undo log -/

/-- A done-stack is exhausted for undo purposes when every frame is empty. -/
def AllEmpty {Px : Type} (l : List (UndoFrame Px)) : Prop := ∀ f ∈ l, f = []

instance {Px : Type} [DecidableEq Px] (l : List (UndoFrame Px)) : Decidable (AllEmpty l) :=
  decidable_of_iff (∀ f ∈ l, f = []) Iff.rfl

theorem pop_non_empty_nil {Px : Type} : pop_non_empty ([] : List (UndoFrame Px)) = none := by
  rw [pop_non_empty]
  split
  · rfl
  · rename_i frame h
    simp at h

theorem pop_non_empty_concat {Px : Type} (l : List (UndoFrame Px)) (f : UndoFrame Px) :
    pop_non_empty (l ++ [f]) = if f.isEmpty then pop_non_empty l else some (l, f) := by
  rw [pop_non_empty]
  split
  · rename_i h
    rw [List.getLast?_concat] at h
    simp at h
  · rename_i frame h
    rw [List.getLast?_concat] at h
    injection h with h
    subst h
    rw [List.dropLast_concat]

theorem pop_non_empty_of_all_empty {Px : Type} (l : List (UndoFrame Px)) :
    AllEmpty l → pop_non_empty l = none := by
  induction l using List.reverseRecOn with
  | nil => intro _; exact pop_non_empty_nil
  | append_singleton l f ih =>
    intro h
    rw [pop_non_empty_concat]
    have hf : f = [] := h f (by simp)
    rw [if_pos (by simp [hf])]
    exact ih (fun g hg => h g (by simp [hg]))

theorem pop_non_empty_found {Px : Type} (rest : List (UndoFrame Px)) (f : UndoFrame Px)
    (empties : List (UndoFrame Px)) (hf : f ≠ []) :
    AllEmpty empties → pop_non_empty (rest ++ f :: empties) = some (rest, f) := by
  induction empties using List.reverseRecOn with
  | nil =>
    intro _
    have heq : rest ++ f :: ([] : List (UndoFrame Px)) = rest ++ [f] := rfl
    rw [heq, pop_non_empty_concat, if_neg (by simpa using hf)]
  | append_singleton es e ih =>
    intro h
    have heq : rest ++ f :: (es ++ [e]) = (rest ++ f :: es) ++ [e] := by simp
    have he : e = [] := h e (by simp)
    rw [heq, pop_non_empty_concat, if_pos (by simp [he])]
    exact ih (fun g hg => h g (by simp [hg]))

theorem Surface.get_set_self {Px : Type} (s : Surface Px) (x y : Int) (px : Px) :
    (s.set_pixel x y px).get_pixel x y = px := by
  simp [Surface.get_pixel, Surface.set_pixel]

theorem Surface.get_set_other {Px : Type} (s : Surface Px) (x y a b : Int) (px : Px)
    (h : ((a, b) : Int × Int) ≠ (x, y)) :
    (s.set_pixel x y px).get_pixel a b = s.get_pixel a b := by
  simp [Surface.get_pixel, Surface.set_pixel, h]

theorem Surface.set_get_self {Px : Type} (s : Surface Px) (x y : Int) :
    s.set_pixel x y (s.get_pixel x y) = s := by
  funext q
  by_cases h : q = (x, y)
  · subst h
    simp [Surface.set_pixel, Surface.get_pixel]
  · simp [Surface.set_pixel, h]

/-- The old value recorded by the first entry of a frame touching (x, y). -/
def first_old_at {Px : Type} (f : UndoFrame Px) (x y : Int) : Option Px :=
  (f.find? (fun e => decide (e.1 = x ∧ e.2.1 = y))).map (fun e => e.2.2.1)

/-- The new value recorded by the last entry of a frame touching (x, y). -/
def last_new_at {Px : Type} (f : UndoFrame Px) (x y : Int) : Option Px :=
  (f.reverse.find? (fun e => decide (e.1 = x ∧ e.2.1 = y))).map (fun e => e.2.2.2)

theorem undo_fold_get {Px : Type} (f : UndoFrame Px) (s : Surface Px) (x y : Int) :
    (f.reverse.foldl (fun im e => Surface.set_pixel im e.1 e.2.1 e.2.2.1) s).get_pixel x y =
      (first_old_at f x y).getD (s.get_pixel x y) := by
  induction f generalizing s with
  | nil => simp [first_old_at]
  | cons e f ih =>
    rw [List.reverse_cons, List.foldl_append]
    simp only [List.foldl_cons, List.foldl_nil]
    by_cases hm : e.1 = x ∧ e.2.1 = y
    · obtain ⟨h1, h2⟩ := hm
      subst h1
      subst h2
      rw [Surface.get_set_self]
      simp [first_old_at]
    · have hne : ((x, y) : Int × Int) ≠ (e.1, e.2.1) := by
        simp only [ne_eq, Prod.mk.injEq, not_and]
        intro hx hy
        exact hm ⟨hx.symm, hy.symm⟩
      rw [Surface.get_set_other _ _ _ _ _ _ hne, ih]
      simp only [first_old_at]
      rw [List.find?_cons_of_neg _ (by simpa using hm)]

theorem redo_fold_get {Px : Type} (f : UndoFrame Px) (s : Surface Px) (x y : Int) :
    (f.foldl (fun im e => Surface.set_pixel im e.1 e.2.1 e.2.2.2) s).get_pixel x y =
      (last_new_at f x y).getD (s.get_pixel x y) := by
  induction f generalizing s with
  | nil => simp [last_new_at]
  | cons e f ih =>
    rw [List.foldl_cons, ih]
    simp only [last_new_at, List.reverse_cons, List.find?_append]
    cases hfa : f.reverse.find? (fun e => decide (e.1 = x ∧ e.2.1 = y)) with
    | some v =>
      rfl
    | none =>
      by_cases hm : e.1 = x ∧ e.2.1 = y
      · have hfe : List.find? (fun e => decide (e.1 = x ∧ e.2.1 = y)) [e] = some e :=
          List.find?_cons_of_pos _ (by simpa using hm)
        rw [hfe]
        obtain ⟨h1, h2⟩ := hm
        subst h1
        subst h2
        simp [Surface.get_set_self]
      · have hfe : List.find? (fun e => decide (e.1 = x ∧ e.2.1 = y)) [e] = none := by
          rw [List.find?_cons_of_neg _ (by simpa using hm)]
          rfl
        rw [hfe]
        have hne : ((x, y) : Int × Int) ≠ (e.1, e.2.1) := by
          simp only [ne_eq, Prod.mk.injEq, not_and]
          intro hx hy
          exact hm ⟨hx.symm, hy.symm⟩
        simp [Surface.get_set_other _ _ _ _ _ _ hne]

theorem getLast?_eq_getLastD {α : Type} (l : List α) (hl : l ≠ []) (d : α) :
    l.getLast? = some (l.getLastD d) := by
  cases h : l.getLast? with
  | none => exact absurd (List.getLast?_eq_none_iff.mp h) hl
  | some a =>
    rw [List.getLastD_eq_getLast?, h]
    rfl

theorem changes_split {Px : Type} (u : SparseImageUndoer Px) :
    ∃ l f, (if u.changes.isEmpty then [[]] else u.changes) = l ++ [f] ∧
      u.changes.flatten = l.flatten ++ f ∧ u.changes.getLastD [] = f := by
  cases h : u.changes.isEmpty with
  | true =>
    have h' : u.changes = [] := List.isEmpty_iff.mp h
    exact ⟨[], [], by simp [h], by simp [h'], by simp [h']⟩
  | false =>
    have hne : u.changes ≠ [] := List.isEmpty_eq_false.mp h
    rcases u.changes.eq_nil_or_concat with h' | ⟨l, f, h'⟩
    · exact absurd h' hne
    · rw [List.concat_eq_append] at h'
      exact ⟨l, f, by simp [h, h'], by simp [h'], by simp [h', List.getLastD_concat]⟩

theorem undoer_set_pixel?_concat {σ Px : Type} [DecidableEq Px] (ops : ImageOps σ Px)
    (u : SparseImageUndoer Px) (image : σ) (x y : Int) (n : Px)
    (l : List (UndoFrame Px)) (f : UndoFrame Px)
    (hc : (if u.changes.isEmpty then [[]] else u.changes) = l ++ [f]) :
    undoer_set_pixel? ops u image x y n =
      if n ≠ ops.get_pixel image x y then
        some ({ u with
                  changes := l ++ [f ++ [(x, y, ops.get_pixel image x y, n)]]
                  redo := [] },
              ops.set_pixel image x y n)
      else
        some ({ u with changes := l ++ [f] }, image) := by
  unfold undoer_set_pixel?
  rw [hc]
  simp only [List.getLast?_concat, List.dropLast_concat]

theorem surfaceOps_get {Px : Type} (s : Surface Px) (x y : Int) :
    (surfaceOps Px).get_pixel s x y = s.get_pixel x y := rfl

theorem surfaceOps_set {Px : Type} (s : Surface Px) (x y : Int) (px : Px) :
    (surfaceOps Px).set_pixel s x y px = s.set_pixel x y px := rfl

theorem tileOps_get {Px : Type} (st : TiledEguiImage × Surface Px) (x y : Int) :
    (tileOps Px).get_pixel st x y = st.2.get_pixel x y := rfl

theorem tileOps_set {Px : Type} (st : TiledEguiImage × Surface Px) (x y : Int) (px : Px) :
    (tileOps Px).set_pixel st x y px = (notify_change st.1 x y, st.2.set_pixel x y px) := rfl

/-- C4: record_write postcondition of the undo tracker's write path
(SparseImageUndoer::set_pixel over a Surface). If the new value differs from
the Surface's current value old at (x, y) then exactly (x, y, old, new) is
appended to the active (last) frame, new is written to the Surface at (x, y)
and nowhere else, and the redo stack is cleared so a subsequent redo() is a
no-op; if new equals old nothing changes: no frame entry, no Surface write,
redo stack intact. -/
theorem undoer_set_pixel_postcondition {Px : Type} [DecidableEq Px]
    (u : SparseImageUndoer Px) (s : Surface Px) (x y : Int) (n : Px) :
    (n ≠ s.get_pixel x y →
      (undoer_set_pixel (surfaceOps Px) u s x y n).2.get_pixel x y = n ∧
      (undoer_set_pixel (surfaceOps Px) u s x y n).1.redo = [] ∧
      (undoer_set_pixel (surfaceOps Px) u s x y n).1.changes.flatten =
        u.changes.flatten ++ [(x, y, s.get_pixel x y, n)] ∧
      (undoer_set_pixel (surfaceOps Px) u s x y n).1.changes.getLast? =
        some (u.changes.getLastD [] ++ [(x, y, s.get_pixel x y, n)]) ∧
      (∀ a b, ((a, b) : Int × Int) ≠ (x, y) →
        (undoer_set_pixel (surfaceOps Px) u s x y n).2.get_pixel a b = s.get_pixel a b) ∧
      undoer_redo (surfaceOps Px) (undoer_set_pixel (surfaceOps Px) u s x y n).1
          (undoer_set_pixel (surfaceOps Px) u s x y n).2 =
        undoer_set_pixel (surfaceOps Px) u s x y n) ∧
    (n = s.get_pixel x y →
      (undoer_set_pixel (surfaceOps Px) u s x y n).2 = s ∧
      (undoer_set_pixel (surfaceOps Px) u s x y n).1.redo = u.redo ∧
      (undoer_set_pixel (surfaceOps Px) u s x y n).1.changes.flatten = u.changes.flatten) := by
  obtain ⟨l, f, hc, hflat, hlastD⟩ := changes_split u
  have hred := undoer_set_pixel?_concat (surfaceOps Px) u s x y n l f hc
  simp only [surfaceOps_get, surfaceOps_set] at hred
  constructor
  · intro hne
    have hr : undoer_set_pixel (surfaceOps Px) u s x y n =
        ({ u with
             changes := l ++ [f ++ [(x, y, s.get_pixel x y, n)]]
             redo := [] },
         s.set_pixel x y n) := by
      rw [undoer_set_pixel, hred, if_pos hne]
      rfl
    rw [hr]
    refine ⟨Surface.get_set_self s x y n, rfl, ?_, ?_, ?_, ?_⟩
    · simp [List.flatten_concat, hflat]
    · rw [List.getLast?_concat, hlastD]
    · intro a b hab
      exact Surface.get_set_other s x y a b n hab
    · rfl
  · intro heq
    have hr : undoer_set_pixel (surfaceOps Px) u s x y n = ({ u with changes := l ++ [f] }, s) := by
      rw [undoer_set_pixel, hred, if_neg (by simp [heq])]
      rfl
    rw [hr]
    exact ⟨rfl, rfl, by simp [List.flatten_concat, hflat]⟩

/-- Witness for undoer_set_pixel_postcondition: a fresh undoer over the all
zero Surface, writing 1 at the origin. -/
theorem undoer_set_pixel_postcondition_witness :
    (undoer_set_pixel (surfaceOps Int) (SparseImageUndoer.new Int) (fun _ => 0) 0 0 1).2.get_pixel 0 0 = 1 ∧
    (undoer_set_pixel (surfaceOps Int) (SparseImageUndoer.new Int) (fun _ => 0) 0 0 1).1.redo = [] ∧
    (undoer_set_pixel (surfaceOps Int) (SparseImageUndoer.new Int) (fun _ => 0) 0 0 1).1.changes.flatten =
      (SparseImageUndoer.new Int).changes.flatten ++ [(0, 0, (fun _ => (0 : Int)) ((0 : Int), (0 : Int)), 1)] := by
  have h := (undoer_set_pixel_postcondition (SparseImageUndoer.new Int)
    (fun _ => (0 : Int)) 0 0 1).1 (by decide)
  exact ⟨h.1, h.2.1, h.2.2.1⟩

/-- C10: implicit frame creation. When the done-stack is empty,
SparseImageUndoer::set_pixel does not panic: it first pushes a fresh empty
frame, so the internal last_mut().unwrap() succeeds (the result is some, not
none), and the delta, if any, is recorded in that fresh frame. -/
theorem undoer_set_pixel_empty_stack {Px : Type} [DecidableEq Px]
    (u : SparseImageUndoer Px) (s : Surface Px) (x y : Int) (n : Px) (h : u.changes = []) :
    ∃ r, undoer_set_pixel? (surfaceOps Px) u s x y n = some r ∧
      (n ≠ s.get_pixel x y → r.1.changes = [[(x, y, s.get_pixel x y, n)]]) ∧
      (n = s.get_pixel x y → r.1.changes = [[]]) := by
  have hc : (if u.changes.isEmpty then [[]] else u.changes) = [] ++ [[]] := by simp [h]
  have hred := undoer_set_pixel?_concat (surfaceOps Px) u s x y n [] [] hc
  simp only [surfaceOps_get, surfaceOps_set] at hred
  by_cases hne : n = s.get_pixel x y
  · refine ⟨({ u with changes := [] ++ [[]] }, s), ?_, fun hk => absurd hne hk, fun _ => by simp⟩
    rw [hred, if_neg (by simp [hne])]
  · refine ⟨({ u with
                 changes := [] ++ [[] ++ [(x, y, s.get_pixel x y, n)]]
                 redo := [] },
             s.set_pixel x y n), ?_, fun _ => by simp, fun heq => absurd heq hne⟩
    rw [hred, if_pos hne]

/-- Witness for undoer_set_pixel_empty_stack: empty done-stack, write 1 over
a 0 pixel. -/
theorem undoer_set_pixel_empty_stack_witness :
    ∃ r, undoer_set_pixel? (surfaceOps Int) (SparseImageUndoer.new Int) (fun _ => 0) 2 3 1 = some r ∧
      ((1 : Int) ≠ Surface.get_pixel (fun _ => 0) 2 3 → r.1.changes = [[(2, 3, Surface.get_pixel (fun _ => 0) 2 3, 1)]]) ∧
      ((1 : Int) = Surface.get_pixel (fun _ => 0) 2 3 → r.1.changes = [[]]) :=
  undoer_set_pixel_empty_stack (SparseImageUndoer.new Int) (fun _ => 0) 2 3 1 rfl

/-- C9: write suppression through the editor's composed write path. The
editor writes through the undo tracker wrapping the tile tracker wrapping
the Surface (ImageEditor::edit builds undoer.track(tiles.track(image))).
Writing a value equal to the one already stored changes nothing observable:
the result is some (no panic) with the tile map and the Surface returned
untouched (so no dirty flag is set and no pixel changes), no undo frame
entry is created, and the redo stack is unchanged. -/
theorem composed_write_suppression {Px : Type} [DecidableEq Px]
    (u : SparseImageUndoer Px) (t : TiledEguiImage) (s : Surface Px) (x y : Int) (px : Px)
    (h : px = s.get_pixel x y) :
    ∃ u', undoer_set_pixel? (tileOps Px) u (t, s) x y px = some (u', (t, s)) ∧
      u'.changes.flatten = u.changes.flatten ∧ u'.redo = u.redo := by
  obtain ⟨l, f, hc, hflat, -⟩ := changes_split u
  have hred := undoer_set_pixel?_concat (tileOps Px) u (t, s) x y px l f hc
  refine ⟨{ u with changes := l ++ [f] }, ?_, by simp [List.flatten_concat, hflat], rfl⟩
  rw [hred, if_neg (by simp [tileOps_get, h])]

/-- Witness for composed_write_suppression: one existing clean tile, writing
the value already present at the origin. -/
theorem composed_write_suppression_witness :
    ∃ u', undoer_set_pixel? (tileOps Int) (SparseImageUndoer.new Int)
        (⟨fun q => if q = (0, 0) then some false else none, 512⟩, fun _ => 7) 0 0 7 =
        some (u', (⟨fun q => if q = (0, 0) then some false else none, 512⟩, fun _ => 7)) ∧
      u'.changes.flatten = (SparseImageUndoer.new Int).changes.flatten ∧
      u'.redo = (SparseImageUndoer.new Int).redo :=
  composed_write_suppression (SparseImageUndoer.new Int)
    ⟨fun q => if q = (0, 0) then some false else none, 512⟩ (fun _ => 7) 0 0 7 rfl

theorem undoer_undo_exhausted {σ Px : Type} (ops : ImageOps σ Px) (u : SparseImageUndoer Px)
    (image : σ) (hp : pop_non_empty u.changes = none) :
    undoer_undo ops u image = ({ u with changes := [] }, image) := by
  unfold undoer_undo
  rw [hp]

theorem undoer_undo_found {σ Px : Type} (ops : ImageOps σ Px) (u : SparseImageUndoer Px)
    (image : σ) (rest : List (UndoFrame Px)) (f : UndoFrame Px)
    (hp : pop_non_empty u.changes = some (rest, f)) :
    undoer_undo ops u image =
      ({ u with changes := rest, redo := u.redo ++ [f] },
       f.reverse.foldl (fun im e => ops.set_pixel im e.1 e.2.1 e.2.2.1) image) := by
  unfold undoer_undo
  rw [hp]

theorem undoer_redo_empty {σ Px : Type} (ops : ImageOps σ Px) (u : SparseImageUndoer Px)
    (image : σ) (hr : u.redo = []) : undoer_redo ops u image = (u, image) := by
  unfold undoer_redo
  rw [hr]
  rfl

theorem undoer_redo_concat {σ Px : Type} (ops : ImageOps σ Px) (u : SparseImageUndoer Px)
    (image : σ) (l : List (UndoFrame Px)) (f : UndoFrame Px) (hc : u.redo = l ++ [f]) :
    undoer_redo ops u image =
      ({ u with changes := u.changes ++ [f], redo := l },
       f.foldl (fun im e => ops.set_pixel im e.1 e.2.1 e.2.2.2) image) := by
  unfold undoer_redo
  rw [hc, List.getLast?_concat, List.dropLast_concat]

/-- C5: undo() semantics. For every undoer state and Surface: if every frame
of the done-stack is empty, undo is a no-op on the Surface and leaves the
redo stack untouched; otherwise, writing the done-stack as
rest ++ f :: empties with f the most recent non-empty frame (all frames
above it empty), undo pops down to and including f, applies f's
(x, y, old, new) entries in reverse order writing old at each (x, y) (so a
coordinate ends at the old value of its first entry, and coordinates not in
f are untouched), and pushes f onto the redo stack. -/
theorem undoer_undo_spec {Px : Type} (u : SparseImageUndoer Px) (s : Surface Px) :
    (AllEmpty u.changes →
      (undoer_undo (surfaceOps Px) u s).2 = s ∧
      (undoer_undo (surfaceOps Px) u s).1.redo = u.redo) ∧
    (∀ rest f empties, u.changes = rest ++ f :: empties → f ≠ [] → AllEmpty empties →
      (undoer_undo (surfaceOps Px) u s).1.changes = rest ∧
      (undoer_undo (surfaceOps Px) u s).1.redo = u.redo ++ [f] ∧
      ∀ x y, (undoer_undo (surfaceOps Px) u s).2.get_pixel x y =
        (first_old_at f x y).getD (s.get_pixel x y)) := by
  constructor
  · intro h
    rw [undoer_undo_exhausted (surfaceOps Px) u s (pop_non_empty_of_all_empty _ h)]
    exact ⟨rfl, rfl⟩
  · intro rest f empties hc hf he
    have hp : pop_non_empty u.changes = some (rest, f) := by
      rw [hc]
      exact pop_non_empty_found rest f empties hf he
    rw [undoer_undo_found (surfaceOps Px) u s rest f hp]
    refine ⟨rfl, rfl, fun x y => ?_⟩
    simp only [surfaceOps_set]
    exact undo_fold_get f s x y

/-- Witness for undoer_undo_spec: done-stack holding one recorded write
below one empty frame; undo skips the empty frame, restores the old value 5
at the origin and pushes the frame onto the redo stack. -/
theorem undoer_undo_spec_witness :
    (undoer_undo (surfaceOps Int) ⟨[[(0, 0, 5, 7)], []], [], 100⟩
        (fun q => if q = (0, 0) then 7 else 0)).1.changes = [] ∧
    (undoer_undo (surfaceOps Int) ⟨[[(0, 0, 5, 7)], []], [], 100⟩
        (fun q => if q = (0, 0) then 7 else 0)).1.redo = [] ++ [[(0, 0, 5, 7)]] ∧
    (undoer_undo (surfaceOps Int) ⟨[[(0, 0, 5, 7)], []], [], 100⟩
        (fun q => if q = (0, 0) then 7 else 0)).2.get_pixel 0 0 = 5 := by
  have h := (undoer_undo_spec (⟨[[(0, 0, 5, 7)], []], [], 100⟩ : SparseImageUndoer Int)
    (fun q => if q = (0, 0) then 7 else 0)).2 [] [(0, 0, 5, 7)] [[]] rfl (by decide) (by decide)
  refine ⟨h.1, h.2.1, ?_⟩
  rw [h.2.2 0 0]
  rfl

/-- C6: redo() semantics. For every undoer state and Surface: if the redo
stack is empty, redo is a no-op leaving all state unchanged; otherwise,
writing the redo stack as l ++ [f] (f on top), redo pops f, applies its
(x, y, old, new) entries in forward order writing new at each (x, y) (so a
coordinate ends at the new value of its last entry, and coordinates not in
f are untouched), and pushes f back onto the done-stack. -/
theorem undoer_redo_spec {Px : Type} (u : SparseImageUndoer Px) (s : Surface Px) :
    (u.redo = [] → undoer_redo (surfaceOps Px) u s = (u, s)) ∧
    (∀ l f, u.redo = l ++ [f] →
      (undoer_redo (surfaceOps Px) u s).1.redo = l ∧
      (undoer_redo (surfaceOps Px) u s).1.changes = u.changes ++ [f] ∧
      ∀ x y, (undoer_redo (surfaceOps Px) u s).2.get_pixel x y =
        (last_new_at f x y).getD (s.get_pixel x y)) := by
  constructor
  · exact undoer_redo_empty (surfaceOps Px) u s
  · intro l f hc
    rw [undoer_redo_concat (surfaceOps Px) u s l f hc]
    refine ⟨rfl, rfl, fun x y => ?_⟩
    simp only [surfaceOps_set]
    exact redo_fold_get f s x y

/-- Witness for undoer_redo_spec: one frame on the redo stack; redo writes
the recorded new value 9 at (1, 2) and moves the frame to the done-stack. -/
theorem undoer_redo_spec_witness :
    (undoer_redo (surfaceOps Int) ⟨[], [[(1, 2, 0, 9)]], 100⟩ (fun _ => 0)).1.redo = [] ∧
    (undoer_redo (surfaceOps Int) ⟨[], [[(1, 2, 0, 9)]], 100⟩ (fun _ => 0)).1.changes =
      ([] : List (UndoFrame Int)) ++ [[(1, 2, 0, 9)]] ∧
    (undoer_redo (surfaceOps Int) ⟨[], [[(1, 2, 0, 9)]], 100⟩ (fun _ => 0)).2.get_pixel 1 2 = 9 := by
  have h := (undoer_redo_spec (⟨[], [[(1, 2, 0, 9)]], 100⟩ : SparseImageUndoer Int)
    (fun _ => (0 : Int))).2 [] [(1, 2, 0, 9)] rfl
  refine ⟨h.1, h.2.1, ?_⟩
  rw [h.2.2 1 2]
  rfl

/-! ## Undo/redo inverse law over write sequences -/

theorem Surface.set_set {Px : Type} (s : Surface Px) (x y : Int) (a b : Px) :
    (s.set_pixel x y a).set_pixel x y b = s.set_pixel x y b := by
  funext q
  by_cases h : q = (x, y) <;> simp [Surface.set_pixel, h]

/-- An editor interaction step that feeds the undo log: opening a new frame
(gesture start) or one recorded pixel write (ImageEditor::edit routes every
brush write through the undo tracker). -/
inductive EditorOp (Px : Type) where
  | new_frame : EditorOp Px
  | write (x y : Int) (px : Px) : EditorOp Px

def exec_op {Px : Type} [DecidableEq Px] (st : SparseImageUndoer Px × Surface Px) :
    EditorOp Px → SparseImageUndoer Px × Surface Px
  | EditorOp.new_frame => (undoer_new_frame st.1, st.2)
  | EditorOp.write x y px => undoer_set_pixel (surfaceOps Px) st.1 st.2 x y px

/-- Run a sequence of editor steps on a fresh undoer over an initial
Surface. -/
def exec_ops {Px : Type} [DecidableEq Px] (ops : List (EditorOp Px)) (s₀ : Surface Px) :
    SparseImageUndoer Px × Surface Px :=
  ops.foldl exec_op (SparseImageUndoer.new Px, s₀)

/-- FrameOk f s_pre s: the frame f is a faithful record of a chain of
writes leading from the pre-frame Surface s_pre to the current Surface s;
each entry stores the Surface value read at write time as old, and only
differing values were recorded. -/
inductive FrameOk {Px : Type} : UndoFrame Px → Surface Px → Surface Px → Prop where
  | nil (s : Surface Px) : FrameOk [] s s
  | snoc (f : UndoFrame Px) (s₀ s : Surface Px) (x y : Int) (n : Px) :
      FrameOk f s₀ s → n ≠ s.get_pixel x y →
      FrameOk (f ++ [(x, y, s.get_pixel x y, n)]) s₀ (s.set_pixel x y n)

theorem FrameOk.undo_apply {Px : Type} {f : UndoFrame Px} {s₀ s : Surface Px}
    (h : FrameOk f s₀ s) :
    f.reverse.foldl (fun im e => Surface.set_pixel im e.1 e.2.1 e.2.2.1) s = s₀ := by
  induction h with
  | nil s => rfl
  | snoc f s₀ s x y n hf hne ih =>
    rw [List.reverse_append, List.reverse_singleton, List.singleton_append, List.foldl_cons]
    have hcollapse :
        Surface.set_pixel (Surface.set_pixel s x y n) x y (Surface.get_pixel s x y) = s := by
      rw [Surface.set_set, Surface.set_get_self]
    show List.foldl (fun im e => Surface.set_pixel im e.1 e.2.1 e.2.2.1)
      (Surface.set_pixel (Surface.set_pixel s x y n) x y (Surface.get_pixel s x y)) f.reverse = s₀
    rw [hcollapse]
    exact ih

theorem FrameOk.redo_apply {Px : Type} {f : UndoFrame Px} {s₀ s : Surface Px}
    (h : FrameOk f s₀ s) :
    f.foldl (fun im e => Surface.set_pixel im e.1 e.2.1 e.2.2.2) s₀ = s := by
  induction h with
  | nil s => rfl
  | snoc f s₀ s x y n hf hne ih =>
    rw [List.foldl_append, ih]
    rfl

theorem FrameOk.untouched {Px : Type} {f : UndoFrame Px} {s₀ s : Surface Px}
    (h : FrameOk f s₀ s) :
    ∀ a b, first_old_at f a b = none → s.get_pixel a b = s₀.get_pixel a b := by
  induction h with
  | nil s => intro a b _; rfl
  | snoc f s₀ s x y n hf hne ih =>
    intro a b hnone
    simp only [first_old_at, List.find?_append, Option.map_eq_none', Option.or_eq_none]
      at hnone
    obtain ⟨h1, h2⟩ := hnone
    have hm : ¬(x = a ∧ y = b) := by
      intro hk
      rw [List.find?_cons_of_pos _ (by simpa using hk)] at h2
      cases h2
    have hne2 : ((a, b) : Int × Int) ≠ (x, y) := by
      simp only [ne_eq, Prod.mk.injEq, not_and]
      intro ha hb
      exact hm ⟨ha.symm, hb.symm⟩
    rw [Surface.get_set_other _ _ _ _ _ _ hne2]
    exact ih a b (by simp only [first_old_at, h1, Option.map_none'])

/-- The undo-stack consistency invariant maintained by every sequence of
editor steps: either every frame is empty (nothing to undo), or the
done-stack splits as rest ++ f :: empties with f the most recent non-empty
frame and FrameOk tying f to the pre-frame Surface. -/
def UndoerInv {Px : Type} (u : SparseImageUndoer Px) (s : Surface Px) : Prop :=
  AllEmpty u.changes ∨
    ∃ rest f empties s_pre, u.changes = rest ++ f :: empties ∧ f ≠ [] ∧
      AllEmpty empties ∧ FrameOk f s_pre s

theorem getLastD_of_all_empty {Px : Type} (l : List (UndoFrame Px)) (h : AllEmpty l) :
    l.getLastD [] = [] := by
  rcases l.eq_nil_or_concat with rfl | ⟨l', f, hc⟩
  · rfl
  · rw [List.concat_eq_append] at hc
    rw [hc, List.getLastD_concat]
    exact h f (by simp [hc])

theorem AllEmpty_append {Px : Type} {l₁ l₂ : List (UndoFrame Px)}
    (h₁ : AllEmpty l₁) (h₂ : AllEmpty l₂) : AllEmpty (l₁ ++ l₂) := by
  intro f hf
  rcases List.mem_append.mp hf with h | h
  · exact h₁ f h
  · exact h₂ f h

theorem AllEmpty_single {Px : Type} : AllEmpty ([[]] : List (UndoFrame Px)) := by
  intro f hf
  simpa using hf

theorem AllEmpty_nil {Px : Type} : AllEmpty ([] : List (UndoFrame Px)) := by
  intro f hf
  simp at hf

theorem UndoerInv_new_frame {Px : Type} (u : SparseImageUndoer Px) (s : Surface Px)
    (h : UndoerInv u s) : UndoerInv (undoer_new_frame u) s := by
  have hch : (undoer_new_frame u).changes =
      if u.max_frames < (u.changes ++ [[]]).length then (u.changes ++ [[]]).drop 1
      else u.changes ++ [[]] := rfl
  rcases h with hAE | ⟨rest, f, empties, s_pre, hc, hf, he, hok⟩
  · left
    rw [hch]
    have hAE' : AllEmpty (u.changes ++ [[]]) := AllEmpty_append hAE AllEmpty_single
    split
    · exact fun g hg => hAE' g (List.mem_of_mem_drop hg)
    · exact hAE'
  · by_cases hlen : u.max_frames < (u.changes ++ [[]]).length
    · cases rest with
      | nil =>
        left
        intro g hg
        rw [hch, if_pos hlen, hc] at hg
        simp only [List.nil_append, List.cons_append, List.drop_succ_cons, List.drop_zero] at hg
        exact AllEmpty_append he AllEmpty_single g hg
      | cons r rs =>
        right
        refine ⟨rs, f, empties ++ [[]], s_pre, ?_, hf, AllEmpty_append he AllEmpty_single, hok⟩
        rw [hch, if_pos hlen, hc]
        simp
    · right
      refine ⟨rest, f, empties ++ [[]], s_pre, ?_, hf, AllEmpty_append he AllEmpty_single, hok⟩
      rw [hch, if_neg hlen, hc]
      simp

theorem UndoerInv_set_pixel {Px : Type} [DecidableEq Px] (u : SparseImageUndoer Px)
    (s : Surface Px) (x y : Int) (n : Px) (h : UndoerInv u s) :
    UndoerInv (undoer_set_pixel (surfaceOps Px) u s x y n).1
      (undoer_set_pixel (surfaceOps Px) u s x y n).2 := by
  obtain ⟨l, f, hc, hflat, hlastD⟩ := changes_split u
  have hred := undoer_set_pixel?_concat (surfaceOps Px) u s x y n l f hc
  simp only [surfaceOps_get, surfaceOps_set] at hred
  by_cases heq : n = s.get_pixel x y
  · have hr : undoer_set_pixel (surfaceOps Px) u s x y n = ({ u with changes := l ++ [f] }, s) := by
      rw [undoer_set_pixel, hred, if_neg (by simp [heq])]
      rfl
    rw [hr]
    cases hemp : u.changes.isEmpty with
    | true =>
      left
      have hc' : l ++ [f] = [[]] := by
        have := hc
        rw [hemp] at this
        simpa using this.symm
      show AllEmpty (l ++ [f])
      rw [hc']
      exact AllEmpty_single
    | false =>
      have hc' : l ++ [f] = u.changes := by
        have := hc
        rw [hemp] at this
        simpa using this.symm
      have hrec : ({ u with changes := l ++ [f] } : SparseImageUndoer Px) = u := by
        rw [hc']
      rw [hrec]
      exact h
  · have hr : undoer_set_pixel (surfaceOps Px) u s x y n =
        ({ u with
             changes := l ++ [f ++ [(x, y, s.get_pixel x y, n)]]
             redo := [] },
         s.set_pixel x y n) := by
      rw [undoer_set_pixel, hred, if_pos heq]
      rfl
    rw [hr]
    right
    rcases h with hAE | ⟨rest, g, empties, s_pre, hcu, hg, hem, hok⟩
    · have hf : f = [] := by
        rw [← hlastD]
        exact getLastD_of_all_empty u.changes hAE
      refine ⟨l, f ++ [(x, y, s.get_pixel x y, n)], [], s, rfl, by simp, AllEmpty_nil, ?_⟩
      rw [hf]
      exact FrameOk.snoc [] s s x y n (FrameOk.nil s) heq
    · have hcne : u.changes ≠ [] := by
        rw [hcu]
        simp
      have hemp : u.changes.isEmpty = false := List.isEmpty_eq_false.mpr hcne
      have hc' : u.changes = l ++ [f] := by
        have := hc
        rw [hemp] at this
        simpa using this
      rcases empties.eq_nil_or_concat with rfl | ⟨es, e, hese⟩
      · have hfg : f = g := by
          rw [← hlastD, hcu]
          have : rest ++ g :: ([] : List (UndoFrame Px)) = rest ++ [g] := rfl
          rw [this, List.getLastD_concat]
        have hlrest : l = rest := by
          have h1 := congrArg List.dropLast hc'.symm
          rw [List.dropLast_concat, hcu] at h1
          have h2 : rest ++ g :: ([] : List (UndoFrame Px)) = rest ++ [g] := rfl
          rw [h2, List.dropLast_concat] at h1
          exact h1
        refine ⟨rest, g ++ [(x, y, s.get_pixel x y, n)], [], s_pre, ?_, by simp, AllEmpty_nil,
          FrameOk.snoc g s_pre s x y n hok heq⟩
        rw [hlrest, hfg]
      · rw [List.concat_eq_append] at hese
        have he0 : e = [] := hem e (by simp [hese])
        have hassoc : rest ++ g :: (es ++ [e]) = (rest ++ g :: es) ++ [e] := by simp
        have hfe : f = [] := by
          rw [← hlastD, hcu, hese, hassoc, List.getLastD_concat, he0]
        have hlval : l = rest ++ g :: es := by
          have h1 := congrArg List.dropLast hc'.symm
          rw [List.dropLast_concat, hcu, hese, hassoc, List.dropLast_concat] at h1
          exact h1
        refine ⟨rest ++ g :: es, f ++ [(x, y, s.get_pixel x y, n)], [], s, ?_, by simp,
          AllEmpty_nil, ?_⟩
        · rw [hlval]
        · rw [hfe]
          exact FrameOk.snoc [] s s x y n (FrameOk.nil s) heq

theorem exec_preserves_inv {Px : Type} [DecidableEq Px] (ops : List (EditorOp Px)) :
    ∀ st : SparseImageUndoer Px × Surface Px, UndoerInv st.1 st.2 →
      UndoerInv (ops.foldl exec_op st).1 (ops.foldl exec_op st).2 := by
  induction ops with
  | nil => exact fun st h => h
  | cons op ops ih =>
    intro st h
    rw [List.foldl_cons]
    apply ih
    cases op with
    | new_frame => exact UndoerInv_new_frame st.1 st.2 h
    | write x y px => exact UndoerInv_set_pixel st.1 st.2 x y px h

theorem exec_ops_inv {Px : Type} [DecidableEq Px] (ops : List (EditorOp Px)) (s₀ : Surface Px) :
    UndoerInv (exec_ops ops s₀).1 (exec_ops ops s₀).2 :=
  exec_preserves_inv ops (SparseImageUndoer.new Px, s₀) (Or.inl AllEmpty_nil)

/-- C3: undo/redo inverse law. For any sequence of editor steps (frames
opened by new_frame, writes recorded through the undo tracker) applied to an
initial Surface, if anything is undoable then the done-stack splits as
rest ++ f :: empties with f the most recent non-empty frame, there is a
pre-frame Surface s_pre from which f faithfully records the chain of writes
(FrameOk), one undo() restores the Surface exactly to s_pre — every
coordinate recorded in f returns to its pre-frame value and no other
coordinate is touched — and an immediate redo() reproduces the pre-undo
Surface exactly. -/
theorem undo_redo_inverse {Px : Type} [DecidableEq Px] (ops : List (EditorOp Px))
    (s₀ : Surface Px) (hne : ¬ AllEmpty (exec_ops ops s₀).1.changes) :
    ∃ rest f empties s_pre,
      (exec_ops ops s₀).1.changes = rest ++ f :: empties ∧ f ≠ [] ∧ AllEmpty empties ∧
      FrameOk f s_pre (exec_ops ops s₀).2 ∧
      (undoer_undo (surfaceOps Px) (exec_ops ops s₀).1 (exec_ops ops s₀).2).2 = s_pre ∧
      (∀ a b, first_old_at f a b = none →
        s_pre.get_pixel a b = (exec_ops ops s₀).2.get_pixel a b) ∧
      (undoer_redo (surfaceOps Px)
          (undoer_undo (surfaceOps Px) (exec_ops ops s₀).1 (exec_ops ops s₀).2).1
          (undoer_undo (surfaceOps Px) (exec_ops ops s₀).1 (exec_ops ops s₀).2).2).2 =
        (exec_ops ops s₀).2 := by
  rcases exec_ops_inv ops s₀ with h | ⟨rest, f, empties, s_pre, hc, hf, he, hok⟩
  · exact absurd h hne
  · have hp : pop_non_empty (exec_ops ops s₀).1.changes = some (rest, f) := by
      rw [hc]
      exact pop_non_empty_found rest f empties hf he
    have hu := undoer_undo_found (surfaceOps Px) (exec_ops ops s₀).1 (exec_ops ops s₀).2
      rest f hp
    have hfold : f.reverse.foldl
        (fun im e => (surfaceOps Px).set_pixel im e.1 e.2.1 e.2.2.1)
        (exec_ops ops s₀).2 = s_pre := hok.undo_apply
    refine ⟨rest, f, empties, s_pre, hc, hf, he, hok, ?_, ?_, ?_⟩
    · rw [hu]
      exact hfold
    · intro a b hab
      exact (hok.untouched a b hab).symm
    · rw [hu]
      have hredo := undoer_redo_concat (surfaceOps Px)
        ({ (exec_ops ops s₀).1 with changes := rest, redo := (exec_ops ops s₀).1.redo ++ [f] })
        (f.reverse.foldl (fun im e => (surfaceOps Px).set_pixel im e.1 e.2.1 e.2.2.1)
          (exec_ops ops s₀).2)
        (exec_ops ops s₀).1.redo f rfl
      rw [hredo, hfold]
      exact hok.redo_apply

/-- Witness for undo_redo_inverse: one gesture writing 5 then 7 at the
origin over the all zero Surface, followed by an empty gesture. -/
theorem undo_redo_inverse_witness :
    ∃ rest f empties s_pre,
      (exec_ops [EditorOp.new_frame, EditorOp.write 0 0 5, EditorOp.write 0 0 7,
          EditorOp.new_frame] (fun _ => (0 : Int))).1.changes = rest ++ f :: empties ∧
      f ≠ [] ∧ AllEmpty empties ∧
      FrameOk f s_pre (exec_ops [EditorOp.new_frame, EditorOp.write 0 0 5, EditorOp.write 0 0 7,
          EditorOp.new_frame] (fun _ => (0 : Int))).2 ∧
      (undoer_undo (surfaceOps Int)
          (exec_ops [EditorOp.new_frame, EditorOp.write 0 0 5, EditorOp.write 0 0 7,
            EditorOp.new_frame] (fun _ => (0 : Int))).1
          (exec_ops [EditorOp.new_frame, EditorOp.write 0 0 5, EditorOp.write 0 0 7,
            EditorOp.new_frame] (fun _ => (0 : Int))).2).2 = s_pre ∧
      (∀ a b, first_old_at f a b = none →
        s_pre.get_pixel a b = (exec_ops [EditorOp.new_frame, EditorOp.write 0 0 5,
          EditorOp.write 0 0 7, EditorOp.new_frame] (fun _ => (0 : Int))).2.get_pixel a b) ∧
      (undoer_redo (surfaceOps Int)
          (undoer_undo (surfaceOps Int)
            (exec_ops [EditorOp.new_frame, EditorOp.write 0 0 5, EditorOp.write 0 0 7,
              EditorOp.new_frame] (fun _ => (0 : Int))).1
            (exec_ops [EditorOp.new_frame, EditorOp.write 0 0 5, EditorOp.write 0 0 7,
              EditorOp.new_frame] (fun _ => (0 : Int))).2).1
          (undoer_undo (surfaceOps Int)
            (exec_ops [EditorOp.new_frame, EditorOp.write 0 0 5, EditorOp.write 0 0 7,
              EditorOp.new_frame] (fun _ => (0 : Int))).1
            (exec_ops [EditorOp.new_frame, EditorOp.write 0 0 5, EditorOp.write 0 0 7,
              EditorOp.new_frame] (fun _ => (0 : Int))).2).2).2 =
        (exec_ops [EditorOp.new_frame, EditorOp.write 0 0 5, EditorOp.write 0 0 7,
          EditorOp.new_frame] (fun _ => (0 : Int))).2 :=
  undo_redo_inverse [EditorOp.new_frame, EditorOp.write 0 0 5, EditorOp.write 0 0 7,
    EditorOp.new_frame] (fun _ => (0 : Int)) (by decide)

/-! ## src/brush.rs and src/image_editor.rs: the two brush rasterizers -/

/-- Brush from src/brush.rs lines 13-19 (the enum in src/image_editor.rs
lines 17-23 is identical). -/
inductive Brush where
  | Ellipse (wx wy : Int) : Brush
  | Rectangle (wx wy : Int) : Brush

/-- The inclusive integer range a..=b as a list: the iteration space of the
Rust for dv in -w..=w loops. -/
def int_range (a b : Int) : List Int :=
  (List.range (b + 1 - a).toNat).map (fun i => a + i)

/-- Brush::pixels from src/brush.rs lines 22-43, collecting the offsets fed
to the callback f in order. For the ellipse the solver is called with the
axes swapped (the comment in the source: the ellipse is on its side), and a
solver panic propagates as none. -/
def brush_pixels : Brush → Int → Int → Option (List (Int × Int))
  | Brush.Ellipse wx wy, x, y =>
    ((int_range (-wy) wy).mapM (fun dy =>
      (solve_ellipse wy wx dy).map (fun mx =>
        (int_range (-mx) mx).map (fun dx => (x + dx, y + dy))))).map List.flatten
  | Brush.Rectangle wx wy, x, y =>
    some ((int_range (-wy) wy).flatMap (fun dy =>
      (int_range (-wx) wx).map (fun dx => (x + dx, y + dy))))

/-- Brush::pixels from src/image_editor.rs lines 123-147: the editor's own
rasterizer, which fills a pixel when the strict inequality
dy2 * wx2 < wy2 * wx2 - wy2 * dx2 holds. -/
def image_editor_brush_pixels : Brush → Int → Int → List (Int × Int)
  | Brush.Ellipse wx wy, x, y =>
    (int_range (-wy) wy).flatMap (fun dy =>
      (int_range (-wx) wx).filterMap (fun dx =>
        if dy * dy * (wx * wx) < wy * wy * (wx * wx) - wy * wy * (dx * dx) then
          some (x + dx, y + dy)
        else none))
  | Brush.Rectangle wx wy, x, y =>
    (int_range (-wy) wy).flatMap (fun dy =>
      (int_range (-wx) wx).map (fun dx => (x + dx, y + dy)))

/-- C8: degenerate ellipse coverage. The brush module's solver-based
Brush::Ellipse(0, 3).pixels (src/brush.rs) enumerates exactly the
seven-pixel column dx = 0, dy in [-3, 3], as the specification's scenario
requires; the editor's own copy of Brush::pixels (src/image_editor.rs),
whose fill test is the strict inequality, enumerates no offset at all for
the same brush, so through the editor the degenerate ellipse is the empty
set the claim rules out. -/
theorem ellipse_degenerate_column :
    brush_pixels (Brush.Ellipse 0 3) 0 0 =
      some [(0, -3), (0, -2), (0, -1), (0, 0), (0, 1), (0, 2), (0, 3)] ∧
    image_editor_brush_pixels (Brush.Ellipse 0 3) 0 0 = [] := by
  constructor
  · rfl
  · rfl

/-- A concrete tile table for the tile-addressing check: tiles exist at tile
coordinates (-1, 0) and (0, 0), both clean, with the default 512 pixel tile
width. -/
def tiled_neg_example : TiledEguiImage :=
  { tiles := fun q => if q = (-1, 0) ∨ q = (0, 0) then some false else none
    texture_width := 512 }

/-- C7: tile addressing at negative coordinates. The tile whose drawn region
contains pixel (-1, 0) is (floor(-1 / 512), floor(0 / 512)) = (-1, 0), but
calc_tile uses Rust's truncating isize division, giving (0, 0): after
notify_change (-1) 0 the containing tile's dirty flag is still false and
tile (0, 0) — whose region does not contain (-1, 0) — has been marked dirty
instead. -/
theorem notify_change_misses_floor_tile :
    Int.fdiv (-1) 512 = -1 ∧
    calc_tile tiled_neg_example (-1) 0 = (0, 0) ∧
    (notify_change tiled_neg_example (-1) 0).tiles (-1, 0) = some false ∧
    (notify_change tiled_neg_example (-1) 0).tiles (0, 0) = some true := by
  refine ⟨by decide, by decide, by decide, by decide⟩
